import Mathlib

/-!
Verification development for the bulk-processing engine of the
`twtoolbox` helpers module (`src/twtoolbox/helpers.py`).

The embedding models:
* `_get_latest_id` (checkpoint scan over a line-delimited record file);
* `gen_chunks` (fixed-size chunking of tagged, concatenated input
  sequences via `zip_longest` windows with `None` padding);
* `bulk_process` (the per-item skip / fresh-write / resume state machine
  with per-item `TweepError` isolation).

A file line is modelled by its parse result: `some i` for a line that is
a valid JSON record carrying a numeric `id` field equal to `i`, `none`
for a malformed line (unparseable JSON, or a record lacking `id`), on
which `json.loads(line)` / `obj["id"]` raises.  A filesystem is an
association list from filenames to file contents.  The unit of work
`function(writer, **args)` is modelled by a function from the work value
and the optional `since_id` argument to the list of lines it writes
before returning or raising, together with its outcome (normal return,
`TweepError`, or any other exception).
-/

/-- A line of an output file, by parse result: `some i` is a record with
numeric `id` field `i`; `none` is a malformed line. -/
abbrev Line := Option Int

/-- Contents of one output file: its lines in order. -/
abbrev File := List Line

/-- The output directory: an association list from filenames to files. -/
abbrev FS := List (String × File)

/-- Outcome of one call of the work function `function(writer, **args)`:
normal return, a raised `TweepError`, or any other exception. -/
inductive Outcome where
  | ok
  | tweep
  | other
  deriving DecidableEq, Repr

/-- Result of one call of the work function: the lines it wrote to the
open writer before returning or raising, and how it finished. -/
structure WorkResult where
  written : List Line
  outcome : Outcome
  deriving DecidableEq, Repr

/-- Why a whole `bulk_process` run aborted: an exception from the
checkpoint scan `_get_latest_id` (outside the `try`), or a
non-`TweepError` exception from the work function. -/
inductive AbortReason where
  | parseError
  | otherError
  deriving DecidableEq, Repr

/-- Result of a `bulk_process` run: the final filesystem, the returned
`num_processed`, the number of skip warnings logged, and `none` when the
run returned normally or the abort reason when an uncaught exception
propagated. -/
structure RunResult where
  fs : FS
  processed : Nat
  skips : Nat
  error : Option AbortReason
  deriving DecidableEq, Repr

/-- `os.path.exists` / reading a file: look a filename up in the
directory. -/
def fsLookup : FS → String → Option File
  | [], _ => none
  | (k, f) :: rest, k' => if k = k' then some f else fsLookup rest k'

/-- Writing a file: replace its contents if present, create it
otherwise. -/
def fsUpdate : FS → String → File → FS
  | [], k, f => [(k, f)]
  | (k', f') :: rest, k, f =>
      if k' = k then (k, f) :: rest else (k', f') :: fsUpdate rest k f

/-- The loop of `_get_latest_id`: `latest_id` starts at `None`; each line
is parsed (raising on a malformed line, modelled as `Except.error ()`),
and `latest_id` is replaced whenever it is `None` or the record id is
greater. -/
def getLatestIdAux : Option Int → List Line → Except Unit (Option Int)
  | latest, [] => Except.ok latest
  | _, none :: _ => Except.error ()
  | latest, some i :: rest =>
      getLatestIdAux
        (match latest with
         | none => some i
         | some l => if i > l then some i else some l) rest

/-- `_get_latest_id(filename)`: scan every line of the file, returning
the maximum record id seen, `none` for a file with no lines, or an error
on the first malformed line. -/
def getLatestIdE (lines : File) : Except Unit (Option Int) :=
  getLatestIdAux none lines

/-- The merged list of `gen_chunks`:
`[(idx, el) for idx, iterable in enumerate(iterables) for el in iterable]`,
built here with an explicit running index `k`. -/
def mergeFrom (k : Nat) : List (List α) → List (Nat × α)
  | [] => []
  | it :: rest => (it.map fun el => (k, el)) ++ mergeFrom (k + 1) rest

/-- The merged, source-tagged concatenation of all input sequences. -/
def mergeTagged (its : List (List α)) : List (Nat × α) :=
  mergeFrom 0 its

/-- `zip_longest(*([iter(merged)] * size))` without its padding: the
consecutive windows of up to `n` elements.  For `n = 0` (Python
`[it] * size` with `size ≤ 0` is the empty argument list) no windows are
produced at all. -/
def groupsOf (n : Nat) (l : List α) : List (List α) :=
  if _h : n = 0 ∨ l.isEmpty then [] else l.take n :: groupsOf n (l.drop n)
termination_by l.length
decreasing_by
  simp only [not_or, List.isEmpty_iff] at _h
  simp only [List.length_drop]
  cases l with
  | nil => exact absurd rfl _h.2
  | cons a t => simp only [List.length_cons]; omega

/-- The `None` padding `zip_longest` adds to the final short window. -/
def padTo (n : Nat) (c : List α) : List (Option α) :=
  c.map some ++ List.replicate (n - c.length) none

/-- One component of a chunk:
`[el[1] for el in chunk if el is not None and el[0] == idx]`. -/
def pickComponent (idx : Nat) (padded : List (Option (Nat × α))) : List α :=
  padded.filterMap fun o =>
    match o with
    | some (j, e) => if j = idx then some e else none
    | none => none

/-- `gen_chunks(*iterables, size=size)`: tag and merge all inputs, window
the merged list into `size`-wide padded windows, and regroup each window
by source index.  `size` is an `Int` because the Python keyword argument
may be any integer; `Int.toNat` reflects that `[it] * size` is empty for
`size ≤ 0`. -/
def genChunks (size : Int) (its : List (List α)) : List (List (List α)) :=
  (groupsOf size.toNat (mergeTagged its)).map fun chunk =>
    (List.range its.length).map fun idx =>
      pickComponent idx (padTo size.toNat chunk)

/-- Total number of elements across all input sequences. -/
def totalElements (its : List (List α)) : Nat :=
  (its.map List.length).sum

/-- The per-source selector applied to an element of the merged tagged
list: keep the element exactly when its source tag equals `idx`.  This is
the `el[0] == idx` test of `gen_chunks` on an unpadded element. -/
def projTag (idx : Nat) (p : Nat × α) : Option α :=
  if p.1 = idx then some p.2 else none

/-- The `try` block of one `bulk_process` iteration: open the output
file (`"a"` keeps the existing contents when `resume` is set, `"w"`
truncates), call the work function with the value and the optional
`since_id`, and record whatever it wrote, whether or not it raised. -/
def runItem (fn : α → Option Int → WorkResult) (resume : Bool) (fs : FS)
    (filename : String) (value : α) (latest : Option Int) : FS × Outcome :=
  let base := if resume then (fsLookup fs filename).getD [] else []
  let r := fn value latest
  (fsUpdate fs filename (base ++ r.written), r.outcome)

/-- `bulk_process(logger, output_dir, filename_tmpl, function, func_input,
var_arg, resume)`: iterate over the `(basename, value)` pairs; for each,
if the output file exists, either skip it (`resume=false`, logging a
warning) or compute the checkpoint with `_get_latest_id` (whose
exceptions propagate, aborting the run); otherwise process it inside a
`try` that catches only `TweepError`, counting successful items.  `tmpl`
stands for `path.join(output_dir, filename_tmpl % basename)`. -/
def bulkProcess (fn : α → Option Int → WorkResult) (tmpl : String → String)
    (resume : Bool) :
    List (String × α) → FS → Nat → Nat → RunResult
  | [], fs, proc, skips => ⟨fs, proc, skips, none⟩
  | (basename, value) :: rest, fs, proc, skips =>
    match fsLookup fs (tmpl basename) with
    | none =>
      match runItem fn resume fs (tmpl basename) value none with
      | (fs', Outcome.ok) => bulkProcess fn tmpl resume rest fs' (proc + 1) skips
      | (fs', Outcome.tweep) => bulkProcess fn tmpl resume rest fs' proc skips
      | (fs', Outcome.other) => ⟨fs', proc, skips, some AbortReason.otherError⟩
    | some file =>
      if resume then
        match getLatestIdE file with
        | Except.error _ => ⟨fs, proc, skips, some AbortReason.parseError⟩
        | Except.ok latest =>
          match runItem fn resume fs (tmpl basename) value latest with
          | (fs', Outcome.ok) => bulkProcess fn tmpl resume rest fs' (proc + 1) skips
          | (fs', Outcome.tweep) => bulkProcess fn tmpl resume rest fs' proc skips
          | (fs', Outcome.other) => ⟨fs', proc, skips, some AbortReason.otherError⟩
      else
        bulkProcess fn tmpl resume rest fs proc (skips + 1)

/-- `num_processed` restricted to the fresh-write setting: the number of
items whose work-function call (with no `since_id`) returns normally. -/
def countOk (fn : α → Option Int → WorkResult) (items : List (String × α)) : Nat :=
  (items.filter fun it => (fn it.2 none).outcome = Outcome.ok).length

/-- The filesystem produced by fresh-writing every item in order on top
of `fs`: each item's file holds exactly what its work-function call (with
no `since_id`) wrote. -/
def freshFs (fn : α → Option Int → WorkResult) (tmpl : String → String)
    (fs : FS) (items : List (String × α)) : FS :=
  items.foldl (fun f it => fsUpdate f (tmpl it.1) ((fn it.2 none).written)) fs

/-! ### Filesystem lemmas -/

theorem fsLookup_fsUpdate_same (fs : FS) (k : String) (f : File) :
    fsLookup (fsUpdate fs k f) k = some f := by
  induction fs with
  | nil => simp [fsUpdate, fsLookup]
  | cons p rest ih =>
    obtain ⟨k', f'⟩ := p
    by_cases h : k' = k <;> simp [fsUpdate, fsLookup, h, ih]

theorem fsLookup_fsUpdate_ne (fs : FS) (k k₂ : String) (f : File) (h : k ≠ k₂) :
    fsLookup (fsUpdate fs k f) k₂ = fsLookup fs k₂ := by
  induction fs with
  | nil => simp [fsUpdate, fsLookup, h]
  | cons p rest ih =>
    obtain ⟨k', f'⟩ := p
    by_cases h' : k' = k
    · subst h'
      simp [fsUpdate, fsLookup, h]
    · simp [fsUpdate, fsLookup, h', ih]

/-! ### Checkpoint-scan lemmas -/

theorem getLatestIdAux_error (lines : File) (hm : none ∈ lines) :
    ∀ latest, getLatestIdAux latest lines = Except.error () := by
  induction lines with
  | nil => simp at hm
  | cons a t ih =>
    intro latest
    cases a with
    | none => rfl
    | some i =>
      simp only [List.mem_cons] at hm
      rcases hm with hm | hm
      · exact absurd hm.symm (by simp)
      · exact ih hm _

theorem getLatestIdAux_map_some (ids : List Int) :
    ∀ a : Int, getLatestIdAux (some a) (ids.map some) =
      Except.ok (some (ids.foldl max a)) := by
  induction ids with
  | nil => intro a; rfl
  | cons i t ih =>
    intro a
    have hstep : (if i > a then some i else some a) = some (max a i) := by
      rcases lt_or_le a i with h | h
      · simp [h, max_eq_right h.le]
      · simp [not_lt.mpr h, max_eq_left h]
    show getLatestIdAux (if i > a then some i else some a) (t.map some) = _
    rw [hstep, ih (max a i)]
    rfl

theorem foldl_max_mem (t : List Int) : ∀ a : Int,
    t.foldl max a = a ∨ t.foldl max a ∈ t := by
  induction t with
  | nil => intro a; left; rfl
  | cons x u ih =>
    intro a
    rcases ih (max a x) with h | h
    · rw [List.foldl_cons, h]
      rcases max_choice a x with hc | hc
      · left; exact hc
      · right; rw [hc]; exact List.mem_cons_self x u
    · right
      exact List.mem_cons_of_mem x h

theorem foldl_max_bound (t : List Int) : ∀ a : Int,
    a ≤ t.foldl max a ∧ ∀ x ∈ t, x ≤ t.foldl max a := by
  induction t with
  | nil => intro a; exact ⟨le_refl a, by simp⟩
  | cons y u ih =>
    intro a
    obtain ⟨h1, h2⟩ := ih (max a y)
    refine ⟨le_trans (le_max_left a y) h1, ?_⟩
    intro x hx
    rcases List.mem_cons.mp hx with rfl | hx
    · exact le_trans (le_max_right a x) h1
    · exact h2 x hx

/-! ### Claim theorems: skip, resume-on-empty, malformed checkpoint,
fresh-write failure, nonpositive chunk size -/

/-- C4: when the output file for an item already exists and
`resume=false`, `bulk_process` skips the item entirely: it logs one skip
warning and continues with the remaining items against an unchanged
filesystem, with an unchanged processed count; the work function is
never consulted for the item (the right-hand side makes no call of `fn`
on `v`). -/
theorem bulk_skip_existing (fn : α → Option Int → WorkResult)
    (tmpl : String → String) (b : String) (v : α) (rest : List (String × α))
    (fs : FS) (proc skips : Nat) (h : (fsLookup fs (tmpl b)).isSome) :
    bulkProcess fn tmpl false ((b, v) :: rest) fs proc skips =
      bulkProcess fn tmpl false rest fs proc (skips + 1) := by
  obtain ⟨file, hl⟩ := Option.isSome_iff_exists.mp h
  rw [bulkProcess, hl]
  rfl

/-- Witness for C4 at a concrete input. -/
theorem bulk_skip_existing_witness :
    bulkProcess (fun (_ : Int) _ => ⟨[], Outcome.ok⟩) id false
        [("a", 0)] [("a", [])] 0 0 =
      bulkProcess (fun (_ : Int) _ => ⟨[], Outcome.ok⟩) id false
        [] [("a", [])] 0 1 :=
  bulk_skip_existing _ _ _ _ _ _ _ _ (by decide)

/-- C9: when `resume=true` and the item's output file exists but has no
lines, the checkpoint scan returns `None`, and the run behaves exactly
as the fresh-write run on an empty directory: the work function is
called with no `since_id` (argument `none`) and the file ends up holding
exactly what that call wrote (appending to the empty contents). -/
theorem bulk_resume_empty_file (fn : α → Option Int → WorkResult)
    (tmpl : String → String) (b : String) (v : α) :
    getLatestIdE [] = Except.ok none ∧
    bulkProcess fn tmpl true [(b, v)] [(tmpl b, [])] 0 0 =
      bulkProcess fn tmpl false [(b, v)] [] 0 0 ∧
    fsLookup (bulkProcess fn tmpl true [(b, v)] [(tmpl b, [])] 0 0).fs (tmpl b) =
      some ((fn v none).written) := by
  refine ⟨rfl, ?_, ?_⟩
  · cases h : (fn v none).outcome <;>
      simp [bulkProcess, runItem, fsLookup, fsUpdate, getLatestIdE, getLatestIdAux, h]
  · cases h : (fn v none).outcome <;>
      simp [bulkProcess, runItem, fsLookup, fsUpdate, getLatestIdE, getLatestIdAux, h]

/-- C10: when `resume=true` and the item's existing output file contains
a malformed line, the checkpoint scan raises; since `_get_latest_id` is
called outside the `try`, the exception is not item-local: the whole run
aborts immediately with the filesystem and counters untouched, and no
later item is processed. -/
theorem bulk_malformed_checkpoint_aborts (fn : α → Option Int → WorkResult)
    (tmpl : String → String) (b : String) (v : α) (rest : List (String × α))
    (fs : FS) (file : File) (proc skips : Nat)
    (hf : fsLookup fs (tmpl b) = some file) (hm : none ∈ file) :
    getLatestIdE file = Except.error () ∧
    bulkProcess fn tmpl true ((b, v) :: rest) fs proc skips =
      ⟨fs, proc, skips, some AbortReason.parseError⟩ := by
  have he : getLatestIdE file = Except.error () := getLatestIdAux_error file hm none
  refine ⟨he, ?_⟩
  rw [bulkProcess, hf]
  simp [he]

/-- Witness for C10 at a concrete input. -/
theorem bulk_malformed_checkpoint_aborts_witness :
    getLatestIdE [some 3, none] = Except.error () ∧
    bulkProcess (fun (_ : Int) _ => ⟨[some 1], Outcome.ok⟩) id true
        [("a", 0), ("b", 1)] [("a", [some 3, none])] 2 3 =
      ⟨[("a", [some 3, none])], 2, 3, some AbortReason.parseError⟩ :=
  bulk_malformed_checkpoint_aborts _ _ _ _ _ _ _ _ _ (by decide) (by decide)

/-- Counterexample to C7: with a work function that raises `TweepError`
before writing anything, on an item whose output file did not exist
(fresh-write case), the output file is present after the run — `open`
with mode `"w"` creates it inside the `try` before the work function
raises — contradicting the claim that it is absent. -/
theorem bulk_freshwrite_tweep_cex :
    fsLookup (bulkProcess (fun (_ : Int) _ => ⟨[], Outcome.tweep⟩) id false
        [("a", 0)] [] 0 0).fs "a" ≠ none := by decide

/-- C7 (amended): when a `TweepError` is raised by the work function for
an item whose output file did not exist before processing (fresh-write
case), the item's output file exists after the run and contains exactly
the lines the work function wrote before raising (empty if it raised
before any write); the error is caught (the run does not abort) and the
item is not counted. -/
theorem bulk_freshwrite_tweep_file_present (fn : α → Option Int → WorkResult)
    (tmpl : String → String) (b : String) (v : α) (fs : FS) (proc skips : Nat)
    (hnf : fsLookup fs (tmpl b) = none)
    (ht : (fn v none).outcome = Outcome.tweep) :
    (bulkProcess fn tmpl false [(b, v)] fs proc skips).error = none ∧
    (bulkProcess fn tmpl false [(b, v)] fs proc skips).processed = proc ∧
    fsLookup (bulkProcess fn tmpl false [(b, v)] fs proc skips).fs (tmpl b) =
      some ((fn v none).written) := by
  rw [bulkProcess, hnf]
  simp only [runItem, Bool.false_eq_true, if_false, List.nil_append, ht]
  refine ⟨rfl, rfl, ?_⟩
  exact fsLookup_fsUpdate_same fs (tmpl b) ((fn v none).written)

/-- Witness for the amended C7 at a concrete input. -/
theorem bulk_freshwrite_tweep_file_present_witness :
    (bulkProcess (fun (_ : Int) _ => ⟨[some 4], Outcome.tweep⟩) id false
        [("a", 0)] [("b", [some 1])] 5 6).error = none ∧
    (bulkProcess (fun (_ : Int) _ => ⟨[some 4], Outcome.tweep⟩) id false
        [("a", 0)] [("b", [some 1])] 5 6).processed = 5 ∧
    fsLookup (bulkProcess (fun (_ : Int) _ => ⟨[some 4], Outcome.tweep⟩) id false
        [("a", 0)] [("b", [some 1])] 5 6).fs (id "a") =
      some [some 4] :=
  bulk_freshwrite_tweep_file_present _ _ _ _ _ _ _ (by decide) (by decide)

/-- Counterexample to C8: invoking the chunker on a non-empty input with
`size = 0` is not an error — it silently produces the empty chunk
sequence (`zip_longest` over `[iter(merged)] * size` with `size ≤ 0`
receives no iterators and yields nothing). -/
theorem genChunks_nonpos_size_cex :
    genChunks 0 [[(1 : Int), 2, 3]] = [] ∧ [[(1 : Int), 2, 3]] ≠ [] := by
  constructor
  · rw [genChunks, groupsOf]
    simp
  · decide

/-- C8 (amended): for every collection of input sequences, invoking the
chunker with `size ≤ 0` silently yields the empty chunk sequence rather
than raising an error. -/
theorem genChunks_nonpos_size (its : List (List α)) (size : Int)
    (hs : size ≤ 0) :
    genChunks size its = [] := by
  have h0 : size.toNat = 0 := Int.toNat_of_nonpos hs
  rw [genChunks, h0, groupsOf]
  simp

/-- Witness for the amended C8 at a concrete input. -/
theorem genChunks_nonpos_size_witness :
    genChunks (-2) [[(1 : Int), 2], [3]] = [] :=
  genChunks_nonpos_size _ _ (by decide)

/-- C1: for an existing output file whose lines are all valid records,
the checkpoint computed on resume is the maximum record id in the file;
with `resume=true` and at least one record present, the work function is
invoked with that checkpoint as its `since_id` argument while the file
is opened for append, so after the run the file consists of all
previously present records followed by whatever the call wrote. -/
theorem bulk_checkpoint_resume_append (fn : α → Option Int → WorkResult)
    (tmpl : String → String) (b : String) (v : α) (ids : List Int)
    (hne : ids ≠ []) :
    ∃ m : Int, getLatestIdE (ids.map some) = Except.ok (some m) ∧
      m ∈ ids ∧ (∀ x ∈ ids, x ≤ m) ∧
      fsLookup (bulkProcess fn tmpl true [(b, v)]
          [(tmpl b, ids.map some)] 0 0).fs (tmpl b) =
        some (ids.map some ++ (fn v (some m)).written) := by
  obtain ⟨i, rest, rfl⟩ := List.exists_cons_of_ne_nil hne
  refine ⟨rest.foldl max i, ?_, ?_, ?_, ?_⟩
  · show getLatestIdAux none (some i :: rest.map some) = _
    rw [getLatestIdAux]
    exact getLatestIdAux_map_some rest i
  · rcases foldl_max_mem rest i with h | h
    · rw [h]; exact List.mem_cons_self i rest
    · exact List.mem_cons_of_mem i h
  · intro x hx
    obtain ⟨h1, h2⟩ := foldl_max_bound rest i
    rcases List.mem_cons.mp hx with rfl | hx
    · exact h1
    · exact h2 x hx
  · have hck : getLatestIdE (some i :: rest.map some) =
        Except.ok (some (rest.foldl max i)) := by
      show getLatestIdAux none (some i :: rest.map some) = _
      rw [getLatestIdAux]
      exact getLatestIdAux_map_some rest i
    cases h : (fn v (some (rest.foldl max i))).outcome <;>
      simp [bulkProcess, runItem, fsLookup, fsUpdate, hck, h,
        fsLookup_fsUpdate_same]

/-- Witness for C1: with records `{3, 7, 5}` the checkpoint is `7`, and
the resumed single-item run appends what the work function wrote with
`since_id = 7` after the three original records. -/
theorem bulk_checkpoint_resume_append_witness :
    getLatestIdE [some 3, some 7, some 5] = Except.ok (some 7) ∧
    ∃ m : Int, getLatestIdE ([3, 7, 5].map some) = Except.ok (some m) ∧
      m ∈ [(3 : Int), 7, 5] ∧ (∀ x ∈ [(3 : Int), 7, 5], x ≤ m) ∧
      fsLookup (bulkProcess (fun (_ : Int) s => ⟨[some (s.getD 0 + 1)], Outcome.ok⟩)
          id true [("a", 0)] [(id "a", [3, 7, 5].map some)] 0 0).fs (id "a") =
        some ([3, 7, 5].map some ++
          ((fun (_ : Int) s => (⟨[some (s.getD 0 + 1)], Outcome.ok⟩ : WorkResult)) 0
            (some m)).written) :=
  ⟨rfl, bulk_checkpoint_resume_append
    (fun (_ : Int) s => ⟨[some (s.getD 0 + 1)], Outcome.ok⟩) id "a" 0 [3, 7, 5]
    (by decide)⟩

/-! ### Fresh-run lemmas for the bulk runner -/

theorem bulk_fresh_run (fn : α → Option Int → WorkResult)
    (tmpl : String → String) :
    ∀ (items : List (String × α)) (fs : FS) (proc skips : Nat),
      (items.map fun it => tmpl it.1).Nodup →
      (∀ it ∈ items, fsLookup fs (tmpl it.1) = none) →
      (∀ it ∈ items, (fn it.2 none).outcome ≠ Outcome.other) →
      bulkProcess fn tmpl false items fs proc skips =
        ⟨freshFs fn tmpl fs items, proc + countOk fn items, skips, none⟩ := by
  intro items
  induction items with
  | nil =>
    intro fs proc skips _ _ _
    simp [bulkProcess, freshFs, countOk]
  | cons hd rest ih =>
    obtain ⟨b, v⟩ := hd
    intro fs proc skips hnd hnone hno
    rw [List.map_cons] at hnd
    have hnd2 := List.nodup_cons.mp hnd
    have hb : fsLookup fs (tmpl b) = none := hnone (b, v) (List.mem_cons_self _ _)
    have hnone' : ∀ it ∈ rest,
        fsLookup (fsUpdate fs (tmpl b) ((fn v none).written)) (tmpl it.1) = none := by
      intro it hit
      have hne : tmpl b ≠ tmpl it.1 := by
        intro hEq
        apply hnd2.1
        rw [hEq]
        exact List.mem_map_of_mem (fun it => tmpl it.1) hit
      rw [fsLookup_fsUpdate_ne fs (tmpl b) (tmpl it.1) _ hne]
      exact hnone it (List.mem_cons_of_mem _ hit)
    have hno' : ∀ it ∈ rest, (fn it.2 none).outcome ≠ Outcome.other :=
      fun it hit => hno it (List.mem_cons_of_mem _ hit)
    have hfresh : freshFs fn tmpl fs ((b, v) :: rest) =
        freshFs fn tmpl (fsUpdate fs (tmpl b) ((fn v none).written)) rest := rfl
    rw [bulkProcess, hb]
    cases h : (fn v none).outcome with
    | ok =>
      simp only [runItem, Bool.false_eq_true, if_false, List.nil_append, h]
      rw [ih _ _ _ hnd2.2 hnone' hno', hfresh]
      have hc : countOk fn ((b, v) :: rest) = countOk fn rest + 1 := by
        simp [countOk, List.filter_cons, h]
      rw [hc]
      simp only [RunResult.mk.injEq, and_true, true_and]
      omega
    | tweep =>
      simp only [runItem, Bool.false_eq_true, if_false, List.nil_append, h]
      rw [ih _ _ _ hnd2.2 hnone' hno', hfresh]
      have hc : countOk fn ((b, v) :: rest) = countOk fn rest := by
        simp [countOk, List.filter_cons, h]
      rw [hc]
    | other =>
      exact absurd h (hno (b, v) (List.mem_cons_self _ _))

theorem fsLookup_freshFs_notmem (fn : α → Option Int → WorkResult)
    (tmpl : String → String) :
    ∀ (items : List (String × α)) (fs : FS) (name : String),
      name ∉ items.map (fun it => tmpl it.1) →
      fsLookup (freshFs fn tmpl fs items) name = fsLookup fs name := by
  intro items
  induction items with
  | nil => intro fs name _; rfl
  | cons hd rest ih =>
    obtain ⟨b, v⟩ := hd
    intro fs name hnm
    simp only [List.map_cons, List.mem_cons, not_or] at hnm
    have hstep : freshFs fn tmpl fs ((b, v) :: rest) =
        freshFs fn tmpl (fsUpdate fs (tmpl b) ((fn v none).written)) rest := rfl
    rw [hstep, ih _ name hnm.2,
      fsLookup_fsUpdate_ne fs (tmpl b) name _ (fun hEq => hnm.1 hEq.symm)]

theorem fsLookup_freshFs_mem (fn : α → Option Int → WorkResult)
    (tmpl : String → String) :
    ∀ (items : List (String × α)) (fs : FS) (it : String × α),
      it ∈ items → (items.map fun x => tmpl x.1).Nodup →
      fsLookup (freshFs fn tmpl fs items) (tmpl it.1) =
        some ((fn it.2 none).written) := by
  intro items
  induction items with
  | nil => intro fs it hmem _; simp at hmem
  | cons hd rest ih =>
    obtain ⟨b, v⟩ := hd
    intro fs it hmem hnd
    rw [List.map_cons] at hnd
    have hnd2 := List.nodup_cons.mp hnd
    have hstep : freshFs fn tmpl fs ((b, v) :: rest) =
        freshFs fn tmpl (fsUpdate fs (tmpl b) ((fn v none).written)) rest := rfl
    rcases List.mem_cons.mp hmem with rfl | hmem
    · rw [hstep, fsLookup_freshFs_notmem fn tmpl rest _ _ hnd2.1,
        fsLookup_fsUpdate_same]
    · exact hstep ▸ ih _ it hmem hnd2.2

theorem bulk_all_skip (fn : α → Option Int → WorkResult)
    (tmpl : String → String) :
    ∀ (items : List (String × α)) (fs : FS) (proc skips : Nat),
      (∀ it ∈ items, (fsLookup fs (tmpl it.1)).isSome) →
      bulkProcess fn tmpl false items fs proc skips =
        ⟨fs, proc, skips + items.length, none⟩ := by
  intro items
  induction items with
  | nil => intro fs proc skips _; simp [bulkProcess]
  | cons hd rest ih =>
    obtain ⟨b, v⟩ := hd
    intro fs proc skips hex
    obtain ⟨file, hl⟩ :=
      Option.isSome_iff_exists.mp (hex (b, v) (List.mem_cons_self _ _))
    rw [bulkProcess, hl]
    show bulkProcess fn tmpl false rest fs proc (skips + 1) = _
    rw [ih fs proc (skips + 1) (fun it hit => hex it (List.mem_cons_of_mem _ hit))]
    simp only [RunResult.mk.injEq, List.length_cons, and_true, true_and]
    omega

theorem bulk_fresh_abort (fn : α → Option Int → WorkResult)
    (tmpl : String → String) (b : String) (v : α) (post : List (String × α))
    (hother : (fn v none).outcome = Outcome.other) :
    ∀ (pre : List (String × α)) (fs : FS) (proc skips : Nat),
      ((pre ++ [(b, v)]).map fun it => tmpl it.1).Nodup →
      (∀ it ∈ pre ++ [(b, v)], fsLookup fs (tmpl it.1) = none) →
      (∀ it ∈ pre, (fn it.2 none).outcome ≠ Outcome.other) →
      bulkProcess fn tmpl false (pre ++ (b, v) :: post) fs proc skips =
        ⟨fsUpdate (freshFs fn tmpl fs pre) (tmpl b) ((fn v none).written),
         proc + countOk fn pre, skips, some AbortReason.otherError⟩ := by
  intro pre
  induction pre with
  | nil =>
    intro fs proc skips _ hnone _
    have hb : fsLookup fs (tmpl b) = none := hnone (b, v) (by simp)
    rw [List.nil_append, bulkProcess, hb]
    simp only [runItem, Bool.false_eq_true, if_false, List.nil_append, hother]
    simp [freshFs, countOk]
  | cons hd pre' ih =>
    obtain ⟨b', v'⟩ := hd
    intro fs proc skips hnd hnone hno
    rw [List.cons_append, List.map_cons] at hnd
    have hnd2 := List.nodup_cons.mp hnd
    have hb' : fsLookup fs (tmpl b') = none := hnone (b', v') (by simp)
    have hnone' : ∀ it ∈ pre' ++ [(b, v)],
        fsLookup (fsUpdate fs (tmpl b') ((fn v' none).written)) (tmpl it.1) = none := by
      intro it hit
      have hne : tmpl b' ≠ tmpl it.1 := by
        intro hEq
        apply hnd2.1
        rw [hEq]
        exact List.mem_map_of_mem (fun it => tmpl it.1) hit
      rw [fsLookup_fsUpdate_ne fs (tmpl b') (tmpl it.1) _ hne]
      exact hnone it (List.mem_cons_of_mem _ hit)
    have hno' : ∀ it ∈ pre', (fn it.2 none).outcome ≠ Outcome.other :=
      fun it hit => hno it (List.mem_cons_of_mem _ hit)
    have hstep : freshFs fn tmpl fs ((b', v') :: pre') =
        freshFs fn tmpl (fsUpdate fs (tmpl b') ((fn v' none).written)) pre' := rfl
    rw [List.cons_append, bulkProcess, hb']
    cases h : (fn v' none).outcome with
    | ok =>
      simp only [runItem, Bool.false_eq_true, if_false, List.nil_append, h]
      rw [ih _ _ _ hnd2.2 hnone' hno', hstep]
      have hc : countOk fn ((b', v') :: pre') = countOk fn pre' + 1 := by
        simp [countOk, List.filter_cons, h]
      rw [hc]
      simp only [RunResult.mk.injEq, and_true, true_and]
      omega
    | tweep =>
      simp only [runItem, Bool.false_eq_true, if_false, List.nil_append, h]
      rw [ih _ _ _ hnd2.2 hnone' hno', hstep]
      have hc : countOk fn ((b', v') :: pre') = countOk fn pre' := by
        simp [countOk, List.filter_cons, h]
      rw [hc]
    | other =>
      exact absurd h (hno (b', v') (List.mem_cons_self _ _))

/-- C2: in the fresh-write setting (empty output directory, distinct
filenames, `resume=false`), (a) if no item's work-function call raises a
non-`TweepError` exception, the run completes: every item is processed
in order, items whose call raised `TweepError` are not counted, and the
returned count is exactly the number of items whose call succeeded;
(b) if some item's call raises any other exception class, it is not
caught: the run aborts there, returning only the successes before it. -/
theorem bulk_failure_isolation (fn : α → Option Int → WorkResult)
    (tmpl : String → String) :
    (∀ items : List (String × α),
       (items.map fun it => tmpl it.1).Nodup →
       (∀ it ∈ items, (fn it.2 none).outcome ≠ Outcome.other) →
       (bulkProcess fn tmpl false items [] 0 0).error = none ∧
       (bulkProcess fn tmpl false items [] 0 0).processed = countOk fn items) ∧
    (∀ (pre : List (String × α)) (b : String) (v : α) (post : List (String × α)),
       ((pre ++ [(b, v)]).map fun it => tmpl it.1).Nodup →
       (∀ it ∈ pre, (fn it.2 none).outcome ≠ Outcome.other) →
       (fn v none).outcome = Outcome.other →
       (bulkProcess fn tmpl false (pre ++ (b, v) :: post) [] 0 0).error =
         some AbortReason.otherError ∧
       (bulkProcess fn tmpl false (pre ++ (b, v) :: post) [] 0 0).processed =
         countOk fn pre) := by
  constructor
  · intro items hnd hno
    rw [bulk_fresh_run fn tmpl items [] 0 0 hnd (fun it _ => rfl) hno]
    refine ⟨rfl, ?_⟩
    show 0 + countOk fn items = countOk fn items
    omega
  · intro pre b v post hnd hno hother
    rw [bulk_fresh_abort fn tmpl b v post hother pre [] 0 0 hnd (fun it _ => rfl) hno]
    refine ⟨rfl, ?_⟩
    show 0 + countOk fn pre = countOk fn pre
    omega

/-- Witness for C2: with three items and a failure on the second one, a
`TweepError` leaves a completed run with count 2, while any other
exception aborts the run after the first item with count 1. -/
theorem bulk_failure_isolation_witness :
    ((bulkProcess (fun (v : Int) _ => ⟨[], if v = 2 then Outcome.tweep else Outcome.ok⟩)
        id false [("a", 1), ("b", 2), ("c", 3)] [] 0 0).error = none ∧
     (bulkProcess (fun (v : Int) _ => ⟨[], if v = 2 then Outcome.tweep else Outcome.ok⟩)
        id false [("a", 1), ("b", 2), ("c", 3)] [] 0 0).processed = 2) ∧
    ((bulkProcess (fun (v : Int) _ => ⟨[], if v = 2 then Outcome.other else Outcome.ok⟩)
        id false ([("a", 1)] ++ ("b", 2) :: [("c", 3)]) [] 0 0).error =
        some AbortReason.otherError ∧
     (bulkProcess (fun (v : Int) _ => ⟨[], if v = 2 then Outcome.other else Outcome.ok⟩)
        id false ([("a", 1)] ++ ("b", 2) :: [("c", 3)]) [] 0 0).processed = 1) := by
  constructor
  · have h := (bulk_failure_isolation
        (fun (v : Int) _ => ⟨[], if v = 2 then Outcome.tweep else Outcome.ok⟩) id).1
      [("a", 1), ("b", 2), ("c", 3)] (by decide) (by decide)
    exact ⟨h.1, h.2.trans (by decide)⟩
  · have h := (bulk_failure_isolation
        (fun (v : Int) _ => ⟨[], if v = 2 then Outcome.other else Outcome.ok⟩) id).2
      [("a", 1)] "b" 2 [("c", 3)] (by decide) (by decide) (by decide)
    exact ⟨h.1, h.2.trans (by decide)⟩

/-- C5: starting from an empty output directory with `resume=false`,
distinct filenames and all work-function calls succeeding, one run
returns a processed count of N with every item's output file written;
an immediately repeated run with the same inputs and `resume=false`
returns a processed count of 0, logs N skip warnings, and leaves the
filesystem unchanged. -/
theorem bulk_run_twice (fn : α → Option Int → WorkResult)
    (tmpl : String → String) (items : List (String × α))
    (hnd : (items.map fun it => tmpl it.1).Nodup)
    (hok : ∀ it ∈ items, (fn it.2 none).outcome = Outcome.ok) :
    (bulkProcess fn tmpl false items [] 0 0).error = none ∧
    (bulkProcess fn tmpl false items [] 0 0).processed = items.length ∧
    (∀ it ∈ items,
       fsLookup (bulkProcess fn tmpl false items [] 0 0).fs (tmpl it.1) =
         some ((fn it.2 none).written)) ∧
    bulkProcess fn tmpl false items
        (bulkProcess fn tmpl false items [] 0 0).fs 0 0 =
      ⟨(bulkProcess fn tmpl false items [] 0 0).fs, 0, items.length, none⟩ := by
  have hno : ∀ it ∈ items, (fn it.2 none).outcome ≠ Outcome.other := by
    intro it hit
    rw [hok it hit]
    exact fun hEq => Outcome.noConfusion hEq
  have h1 := bulk_fresh_run fn tmpl items [] 0 0 hnd (fun it _ => rfl) hno
  have hcount : countOk fn items = items.length := by
    unfold countOk
    have hfe : items.filter (fun it => (fn it.2 none).outcome = Outcome.ok) = items :=
      List.filter_eq_self.mpr (fun it hit => by simp [hok it hit])
    rw [hfe]
  have h3 : ∀ it ∈ items,
      fsLookup (bulkProcess fn tmpl false items [] 0 0).fs (tmpl it.1) =
        some ((fn it.2 none).written) := by
    intro it hit
    rw [h1]
    exact fsLookup_freshFs_mem fn tmpl items [] it hit hnd
  refine ⟨by rw [h1], ?_, h3, ?_⟩
  · rw [h1]
    show 0 + countOk fn items = items.length
    omega
  · rw [bulk_all_skip fn tmpl items _ 0 0
      (fun it hit => by rw [h3 it hit]; rfl)]
    simp

/-- Witness for C5 at a concrete input with two items. -/
theorem bulk_run_twice_witness :
    (bulkProcess (fun (v : Int) _ => ⟨[some v], Outcome.ok⟩) id false
        [("a", 1), ("b", 2)] [] 0 0).error = none ∧
    (bulkProcess (fun (v : Int) _ => ⟨[some v], Outcome.ok⟩) id false
        [("a", 1), ("b", 2)] [] 0 0).processed = 2 ∧
    fsLookup (bulkProcess (fun (v : Int) _ => ⟨[some v], Outcome.ok⟩) id false
        [("a", 1), ("b", 2)] [] 0 0).fs "a" = some [some 1] ∧
    bulkProcess (fun (v : Int) _ => ⟨[some v], Outcome.ok⟩) id false
        [("a", 1), ("b", 2)]
        (bulkProcess (fun (v : Int) _ => ⟨[some v], Outcome.ok⟩) id false
          [("a", 1), ("b", 2)] [] 0 0).fs 0 0 =
      ⟨(bulkProcess (fun (v : Int) _ => ⟨[some v], Outcome.ok⟩) id false
          [("a", 1), ("b", 2)] [] 0 0).fs, 0, 2, none⟩ := by
  have h := bulk_run_twice (fun (v : Int) _ => ⟨[some v], Outcome.ok⟩) id
    [("a", 1), ("b", 2)] (by decide) (by decide)
  exact ⟨h.1, h.2.1, h.2.2.1 ("a", 1) (by decide), h.2.2.2⟩

/-! ### Chunker lemmas -/

theorem groupsOf_join (n : Nat) (hn : n ≠ 0) :
    ∀ (len : Nat) (l : List α), l.length ≤ len → (groupsOf n l).flatten = l := by
  intro len
  induction len with
  | zero =>
    intro l hl
    have : l = [] := List.length_eq_zero.mp (Nat.le_zero.mp hl)
    subst this
    rw [groupsOf]
    simp
  | succ len ih =>
    intro l hl
    rw [groupsOf]
    split
    · next h =>
      rcases h with h | h
      · exact absurd h hn
      · rw [List.isEmpty_iff.mp h]
        rfl
    · next h =>
      rw [List.flatten_cons]
      rw [ih (l.drop n) ?hlen]
      · exact List.take_append_drop n l
      case hlen =>
        rw [List.length_drop]
        simp only [not_or, List.isEmpty_iff] at h
        have : l.length ≠ 0 := fun h0 => h.2 (List.length_eq_zero.mp h0)
        omega

theorem filterMap_join_of_map (f : β → Option γ) :
    ∀ L : List (List β), (L.map (List.filterMap f)).flatten = L.flatten.filterMap f := by
  intro L
  induction L with
  | nil => rfl
  | cons a t ih =>
    rw [List.map_cons, List.flatten_cons, List.flatten_cons,
      List.filterMap_append, ih]

theorem pickComponent_padTo (idx n : Nat) (c : List (Nat × α)) :
    pickComponent idx (padTo n c) = c.filterMap (projTag idx) := by
  unfold pickComponent padTo
  rw [List.filterMap_append, List.filterMap_map]
  have h2 : ∀ k : Nat, (List.replicate k (none : Option (Nat × α))).filterMap
      (fun o => match o with
        | some (j, e) => if j = idx then some e else none
        | none => none) = [] := by
    intro k
    induction k with
    | zero => rfl
    | succ k ihk =>
      rw [List.replicate_succ, List.filterMap_cons]
      exact ihk
  rw [h2, List.append_nil]
  apply List.filterMap_congr
  intro p _
  obtain ⟨j, e⟩ := p
  rfl

theorem filterMap_mergeFrom_lt (idx : Nat) :
    ∀ (its : List (List α)) (k : Nat), idx < k →
      (mergeFrom k its).filterMap (projTag idx) = [] := by
  intro its
  induction its with
  | nil => intro k _; rfl
  | cons it rest ih =>
    intro k hk
    rw [mergeFrom, List.filterMap_append, ih (k + 1) (by omega),
      List.filterMap_map]
    have : ∀ el ∈ it, (projTag idx ∘ fun el => (k, el)) el = none := by
      intro el _
      simp only [Function.comp_apply, projTag]
      rw [if_neg (by omega)]
    rw [List.filterMap_eq_nil_iff.mpr this]
    rfl

theorem filterMap_mergeFrom (its : List (List α)) :
    ∀ (k i : Nat), i < its.length →
      (mergeFrom k its).filterMap (projTag (k + i)) = its.getD i [] := by
  induction its with
  | nil => intro k i hi; simp at hi
  | cons it rest ih =>
    intro k i hi
    rw [mergeFrom, List.filterMap_append]
    cases i with
    | zero =>
      rw [filterMap_mergeFrom_lt (k + 0) rest (k + 1) (by omega),
        List.filterMap_map, List.append_nil]
      have : ∀ el ∈ it, (projTag (k + 0) ∘ fun el => (k, el)) el = some el := by
        intro el _
        simp [projTag]
      rw [List.filterMap_congr this, List.filterMap_some]
      rfl
    | succ j =>
      have h1 : (it.map fun el => (k, el)).filterMap (projTag (k + (j + 1))) = [] := by
        rw [List.filterMap_map]
        apply List.filterMap_eq_nil_iff.mpr
        intro el _
        simp only [Function.comp_apply, projTag]
        rw [if_neg (by omega)]
      rw [h1, List.nil_append]
      have h2 : k + (j + 1) = (k + 1) + j := by omega
      rw [h2, ih (k + 1) j (by simpa using hi)]
      rfl

theorem getD_map_range (N : Nat) (g : Nat → List β) (i : Nat) (hi : i < N) :
    ((List.range N).map g).getD i [] = g i := by
  rw [List.getD_eq_getElem?_getD, List.getElem?_map, List.getElem?_range hi]
  rfl

/-- C3: for every finite list of input sequences and every `size ≥ 1`,
concatenating, per source index `i`, the `i`-th sub-sequence of each
chunk produced by `gen_chunks` (in chunk order) reconstructs exactly the
`i`-th original input sequence in its original order. -/
theorem genChunks_reconstruct (its : List (List α)) (size : Int)
    (hs : 1 ≤ size) (i : Nat) (hi : i < its.length) :
    ((genChunks size its).map fun chunk => chunk.getD i []).flatten =
      its.getD i [] := by
  have hn : size.toNat ≠ 0 := by
    rw [Ne, Int.toNat_eq_zero]
    omega
  unfold genChunks
  rw [List.map_map]
  rw [List.map_congr_left (g := List.filterMap (projTag i)) ?hfun]
  case hfun =>
    intro chunk _
    simp only [Function.comp_apply]
    rw [getD_map_range its.length _ i hi, pickComponent_padTo]
  rw [filterMap_join_of_map,
    groupsOf_join size.toNat hn (mergeTagged its).length (mergeTagged its) le_rfl]
  have h := filterMap_mergeFrom its 0 i hi
  rw [Nat.zero_add] at h
  exact h

/-- Witness for C3 at a concrete input: two sources, chunk size 2. -/
theorem genChunks_reconstruct_witness :
    ((genChunks 2 [[(1 : Int), 2, 3], [10, 20]]).map fun chunk =>
        chunk.getD 0 []).flatten =
      [[(1 : Int), 2, 3], [10, 20]].getD 0 [] :=
  genChunks_reconstruct [[(1 : Int), 2, 3], [10, 20]] 2 (by decide) 0 (by decide)

theorem mergeFrom_length :
    ∀ (its : List (List α)) (k : Nat),
      (mergeFrom k its).length = totalElements its := by
  intro its
  induction its with
  | nil => intro k; rfl
  | cons it rest ih =>
    intro k
    rw [mergeFrom, List.length_append, List.length_map, ih (k + 1)]
    simp [totalElements]

theorem mergeFrom_tag_lt :
    ∀ (its : List (List α)) (k : Nat) (p : Nat × α),
      p ∈ mergeFrom k its → p.1 < k + its.length := by
  intro its
  induction its with
  | nil => intro k p hp; simp [mergeFrom] at hp
  | cons it rest ih =>
    intro k p hp
    rw [mergeFrom] at hp
    rcases List.mem_append.mp hp with hp | hp
    · obtain ⟨el, _, rfl⟩ := List.mem_map.mp hp
      simp only [List.length_cons]
      omega
    · have := ih (k + 1) p hp
      simp only [List.length_cons]
      omega

theorem groupsOf_length (n : Nat) (hn : n ≠ 0) :
    ∀ (len : Nat) (l : List α), l.length ≤ len →
      (groupsOf n l).length = (l.length + (n - 1)) / n := by
  intro len
  induction len with
  | zero =>
    intro l hl
    have : l = [] := List.length_eq_zero.mp (Nat.le_zero.mp hl)
    subst this
    rw [groupsOf]
    simp only [List.isEmpty_nil, or_true, dite_true, List.length_nil]
    rw [Nat.div_eq_of_lt (by omega)]
  | succ len ih =>
    intro l hl
    rw [groupsOf]
    split
    · next h =>
      rcases h with h | h
      · exact absurd h hn
      · rw [List.isEmpty_iff.mp h]
        simp only [List.length_nil]
        rw [Nat.div_eq_of_lt (by omega)]
    · next h =>
      simp only [not_or, List.isEmpty_iff] at h
      have hpos : l.length ≠ 0 := fun h0 => h.2 (List.length_eq_zero.mp h0)
      rw [List.length_cons, ih (l.drop n) (by rw [List.length_drop]; omega),
        List.length_drop]
      have harith : ∀ m : Nat, m ≠ 0 →
          (m - n + (n - 1)) / n + 1 = (m + (n - 1)) / n := by
        intro m hm
        have hm1 : m + (n - 1) = (m - 1) + n := by omega
        rw [hm1, Nat.add_div_right _ (by omega)]
        congr 1
        rcases Nat.le_total n m with hc | hc
        · congr 1
          omega
        · rw [Nat.div_eq_of_lt (by omega), Nat.div_eq_of_lt (by omega)]
      exact harith l.length hpos

theorem groupsOf_ne_nil (n : Nat) (hn : n ≠ 0) (l : List α) (hl : l ≠ []) :
    groupsOf n l ≠ [] := by
  rw [groupsOf]
  split
  · next h =>
    rcases h with h | h
    · exact absurd h hn
    · exact absurd (List.isEmpty_iff.mp h) hl
  · exact List.cons_ne_nil _ _

theorem groupsOf_getLast?_length (n : Nat) (hn : n ≠ 0) :
    ∀ (len : Nat) (l : List α), l.length ≤ len → l ≠ [] →
      ∀ c, (groupsOf n l).getLast? = some c →
        c.length = if l.length % n = 0 then n else l.length % n := by
  intro len
  induction len with
  | zero =>
    intro l hl hne
    exact absurd (List.length_eq_zero.mp (Nat.le_zero.mp hl)) hne
  | succ len ih =>
    intro l hl hne c hc
    rw [groupsOf] at hc
    rw [dif_neg (by
      simp only [not_or, List.isEmpty_iff]
      exact ⟨hn, hne⟩)] at hc
    by_cases hshort : l.length ≤ n
    · have hdrop : l.drop n = [] := List.drop_eq_nil_of_le hshort
      rw [hdrop] at hc
      have hgnil : groupsOf n ([] : List α) = [] := by
        rw [groupsOf]
        simp
      rw [hgnil] at hc
      have hc2 : c = l.take n := by
        have : (l.take n :: ([] : List (List α))).getLast? = some (l.take n) := rfl
        rw [this] at hc
        exact (Option.some_inj.mp hc).symm
      subst hc2
      rw [List.length_take]
      have hlen : min n l.length = l.length := Nat.min_eq_right hshort
      rw [hlen]
      have hlpos : l.length ≠ 0 := fun h0 => hne (List.length_eq_zero.mp h0)
      by_cases heq : l.length = n
      · rw [heq]
        simp
      · have hlt : l.length < n := by omega
        rw [Nat.mod_eq_of_lt hlt, if_neg hlpos]
    · have hlen2 : n < l.length := by omega
      have hdne : l.drop n ≠ [] := by
        rw [Ne, List.drop_eq_nil_iff]
        omega
      have htail : groupsOf n (l.drop n) ≠ [] := groupsOf_ne_nil n hn _ hdne
      have hc2 : (groupsOf n (l.drop n)).getLast? = some c := by
        obtain ⟨a, t, ht⟩ := List.exists_cons_of_ne_nil htail
        rw [ht] at hc ⊢
        rw [List.getLast?_cons_cons] at hc
        exact hc
      have := ih (l.drop n) (by rw [List.length_drop]; omega) hdne c hc2
      rw [List.length_drop] at this
      have hmod : l.length % n = (l.length - n) % n :=
        Nat.mod_eq_sub_mod (by omega)
      rw [this, hmod]

theorem sum_map_add_nat (f g : Nat → Nat) :
    ∀ l : List Nat, (l.map fun i => f i + g i).sum = (l.map f).sum + (l.map g).sum := by
  intro l
  induction l with
  | nil => rfl
  | cons a t ih =>
    simp only [List.map_cons, List.sum_cons, ih]
    omega

theorem sum_indicator_range (j N : Nat) (h : j < N) :
    ((List.range N).map fun i => if j = i then 1 else 0).sum = 1 := by
  induction N with
  | zero => omega
  | succ N ih =>
    rw [List.range_succ, List.map_append, List.sum_append]
    by_cases hj : j = N
    · subst hj
      have hz : ((List.range j).map fun i => if j = i then 1 else 0).sum = 0 := by
        apply List.sum_eq_zero
        intro x hx
        obtain ⟨i, hi, rfl⟩ := List.mem_map.mp hx
        rw [List.mem_range] at hi
        rw [if_neg (by omega)]
      rw [hz]
      simp
    · rw [ih (by omega)]
      simp [hj]

theorem sum_proj_counts (N : Nat) :
    ∀ c : List (Nat × α), (∀ p ∈ c, p.1 < N) →
      ((List.range N).map fun idx => (c.filterMap (projTag idx)).length).sum =
        c.length := by
  intro c
  induction c with
  | nil =>
    intro _
    apply List.sum_eq_zero
    intro x hx
    obtain ⟨i, _, rfl⟩ := List.mem_map.mp hx
    rfl
  | cons p t ih =>
    intro h
    have hstep : ∀ idx : Nat, ((p :: t).filterMap (projTag idx)).length =
        (if p.1 = idx then 1 else 0) + (t.filterMap (projTag idx)).length := by
      intro idx
      rw [List.filterMap_cons]
      by_cases hpi : p.1 = idx
      · simp only [projTag, hpi, if_pos]
        simp [List.length_cons]
        omega
      · simp [projTag, hpi]
    simp only [hstep]
    rw [sum_map_add_nat, ih (fun q hq => h q (List.mem_cons_of_mem _ hq)),
      sum_indicator_range p.1 N (h p (List.mem_cons_self _ _))]
    simp [List.length_cons]
    omega

/-- C6: for every list of input sequences and every `size ≥ 1`,
`gen_chunks` produces exactly `ceil(total_elements / size)` chunks
(`(total + size - 1) / size` in natural division); the last chunk's
combined element count across all sources is `total_elements mod size`
(or `size` when `size` divides `total_elements`); and the `None` padding
added to the final window never reaches any output sub-sequence: each
component of a padded window equals the component of the unpadded
window. -/
theorem genChunks_count (its : List (List α)) (size : Int) (hs : 1 ≤ size) :
    (genChunks size its).length =
      (totalElements its + (size.toNat - 1)) / size.toNat ∧
    (∀ h : genChunks size its ≠ [],
       (((genChunks size its).getLast h).map List.length).sum =
         if totalElements its % size.toNat = 0 then size.toNat
         else totalElements its % size.toNat) ∧
    (∀ (idx : Nat) (c : List (Nat × α)),
       pickComponent idx (padTo size.toNat c) = c.filterMap (projTag idx)) := by
  have hn : size.toNat ≠ 0 := by
    rw [Ne, Int.toNat_eq_zero]
    omega
  refine ⟨?_, ?_, fun idx c => pickComponent_padTo idx size.toNat c⟩
  · unfold genChunks
    rw [List.length_map,
      groupsOf_length size.toNat hn (mergeTagged its).length (mergeTagged its) le_rfl,
      mergeTagged, mergeFrom_length its 0]
  · intro h
    have hGne : groupsOf size.toNat (mergeTagged its) ≠ [] := by
      intro h0
      apply h
      unfold genChunks
      rw [h0]
      rfl
    obtain ⟨c, hc⟩ : ∃ c, (groupsOf size.toNat (mergeTagged its)).getLast? = some c :=
      ⟨_, List.getLast?_eq_getLast _ hGne⟩
    have hmne : mergeTagged its ≠ [] := by
      intro h0
      apply hGne
      rw [h0, groupsOf]
      simp
    have hgl : (genChunks size its).getLast h =
        (List.range its.length).map fun idx =>
          pickComponent idx (padTo size.toNat c) := by
      have h1 : (genChunks size its).getLast? =
          some ((List.range its.length).map fun idx =>
            pickComponent idx (padTo size.toNat c)) := by
        unfold genChunks
        rw [List.getLast?_map, hc]
        rfl
      have h2 := List.getLast?_eq_getLast (genChunks size its) h
      rw [h2] at h1
      exact Option.some_inj.mp h1
    rw [hgl]
    have htags : ∀ p ∈ c, p.1 < its.length := by
      intro p hp
      have hmem : p ∈ mergeTagged its := by
        have hj := groupsOf_join size.toNat hn (mergeTagged its).length
          (mergeTagged its) le_rfl
        rw [← hj]
        exact List.mem_flatten.mpr ⟨c, List.mem_of_getLast?_eq_some hc, hp⟩
      have := mergeFrom_tag_lt its 0 p hmem
      simpa using this
    have hsum : (((List.range its.length).map fun idx =>
        pickComponent idx (padTo size.toNat c)).map List.length).sum = c.length := by
      rw [List.map_map]
      have hfun : (List.length ∘ fun idx => pickComponent idx (padTo size.toNat c)) =
          fun idx => (c.filterMap (projTag idx)).length := by
        funext idx
        simp only [Function.comp_apply]
        rw [pickComponent_padTo]
      rw [hfun]
      exact sum_proj_counts its.length c htags
    rw [hsum]
    have hlen := groupsOf_getLast?_length size.toNat hn (mergeTagged its).length
      (mergeTagged its) le_rfl hmne c hc
    rw [hlen, mergeTagged, mergeFrom_length its 0]

/-- Witness for C6 at a concrete input: two sources with five elements in
total, chunk size 2. -/
theorem genChunks_count_witness :
    (genChunks 2 [[(1 : Int), 2, 3], [10, 20]]).length =
      (totalElements [[(1 : Int), 2, 3], [10, 20]] + ((2 : Int).toNat - 1)) /
        (2 : Int).toNat ∧
    pickComponent 5 (padTo (2 : Int).toNat [((0 : Nat), (9 : Int))]) =
      [((0 : Nat), (9 : Int))].filterMap (projTag 5) := by
  have h := genChunks_count [[(1 : Int), 2, 3], [10, 20]] 2 (by decide)
  exact ⟨h.1, h.2.2 5 [(0, 9)]⟩

/-- Witness for C9 at a concrete input. -/
theorem bulk_resume_empty_file_witness :
    getLatestIdE [] = Except.ok none ∧
    bulkProcess (fun (v : Int) s => ⟨[some (v + s.getD 0)], Outcome.ok⟩) id true
        [("a", 7)] [(id "a", [])] 0 0 =
      bulkProcess (fun (v : Int) s => ⟨[some (v + s.getD 0)], Outcome.ok⟩) id false
        [("a", 7)] [] 0 0 ∧
    fsLookup (bulkProcess (fun (v : Int) s => ⟨[some (v + s.getD 0)], Outcome.ok⟩)
        id true [("a", 7)] [(id "a", [])] 0 0).fs (id "a") = some [some 7] :=
  bulk_resume_empty_file (fun (v : Int) s => ⟨[some (v + s.getD 0)], Outcome.ok⟩)
    id "a" 7
